import Mathlib

/-
Verification of the hex-editor view model of `angrmanagement/ui/views/hex_view.py`:
address geometry, the patch auto-update algorithm (`HexView.auto_patch`), patch
split/merge (`PatchHighlightRegion`), and the cursor/selection/highlight state
machine of `HexGraphicsObject`.

Conventions of the embedding:
  - Python integers are embedded as `Nat` where the quantity is an address, a
    size or an index that is provably nonnegative along every executed path;
    expressions of the source that can go negative (such as
    `p.addr + len(p) - 1` for an empty patch) are computed in `Int`.
  - Byte buffers (`bytes` / `bytearray`) are `List Nat`.
  - Fallible calls return `Option` or carry a `Bool` success flag, exactly where
    the source returns a status or may hit an `assert`.
-/

namespace HexViewModel

/-! ## Address geometry (`HexGraphicsObject.row_col_to_addr` / `addr_to_row_col`)

The source computes `start_addr & ~0xf`. All addresses are nonnegative Python
integers, for which clearing the low four bits equals rounding down to a
multiple of 16, i.e. `start_addr / 16 * 16`. Likewise `>> 4` is division by 16
and `& 15` is remainder mod 16 on nonnegative integers. -/

/-- Value of `start_addr & ~0xf` of the source: `start_addr` rounded down to a
multiple of 16. -/
def row_aligned (start_addr : Nat) : Nat :=
  start_addr / 16 * 16

/-- Translation of `HexGraphicsObject.row_col_to_addr` (hex_view.py:333-337):
`(self.start_addr & ~15) + row*16 + col`. -/
def row_col_to_addr (start_addr row col : Nat) : Nat :=
  row_aligned start_addr + row * 16 + col

/-- Translation of `HexGraphicsObject.addr_to_row_col` (hex_view.py:339-346):
`addr -= start_addr & ~0xf; row = addr >> 4; col = addr & 15`. -/
def addr_to_row_col (start_addr addr : Nat) : Nat × Nat :=
  let a := addr - row_aligned start_addr
  (a / 16, a % 16)

theorem row_aligned_le (s : Nat) : row_aligned s ≤ s := by
  unfold row_aligned
  omega

/-- C1. For addresses at or above `start_addr`, converting to grid coordinates
and back is the identity. -/
theorem row_col_to_addr_addr_to_row_col (start_addr end_addr a : Nat)
    (h1 : start_addr ≤ a) (h2 : a < end_addr) :
    row_col_to_addr start_addr (addr_to_row_col start_addr a).1
      (addr_to_row_col start_addr a).2 = a := by
  have halign : row_aligned start_addr ≤ a :=
    le_trans (row_aligned_le start_addr) h1
  simp only [row_col_to_addr, addr_to_row_col, row_aligned] at *
  omega

/-- C1 witness: the round trip evaluated at a concrete in-range address. -/
theorem row_col_to_addr_addr_to_row_col_witness :
    (100 : Nat) ≤ 105 ∧ (105 : Nat) < 110 ∧
      row_col_to_addr 100 (addr_to_row_col 100 105).1
        (addr_to_row_col 100 105).2 = 105 :=
  ⟨by decide, by decide,
    row_col_to_addr_addr_to_row_col 100 110 105 (by decide) (by decide)⟩

/-! ## Patch model and the `HexView.auto_patch` algorithm (hex_view.py:1012-1051)

The patch store itself (`angr.knowledge_plugins.patches.PatchManager`) is an
external collaborator of this repository and its code is not part of the
sources; it is modelled from the spec below. `auto_patch`, `split` and
`merge_with` are translated from the source. -/

/-- Translation of the patch record `{addr, new_bytes, comment}`; `len(patch)`
of the source is `new_bytes.length`. -/
structure Patch where
  addr : Nat
  new_bytes : List Nat
  comment : String
deriving DecidableEq, Repr

/-- Address one past the last byte of a patch. -/
def patch_end (p : Patch) : Nat :=
  p.addr + p.new_bytes.length

/-- Value of `p.addr + len(p) - 1` of the source, computed in `Int` because it
is `-1` for an empty patch at address 0. -/
def patch_max_addr (p : Patch) : Int :=
  (p.addr : Int) + (p.new_bytes.length : Int) - 1

/-- Modelled from the spec: the externally-owned patch set is a collection
keyed by start address; it is embedded as a list of patches held in ascending
address order. `query_overlapping(addr, size)` returns the patches whose
address range intersects `[addr, addr+size-1]`, in ascending address order. -/
def get_all_patches (pm : List Patch) (addr size : Nat) : List Patch :=
  pm.filter fun p =>
    decide ((p.addr : Int) ≤ (addr : Int) + (size : Int) - 1) &&
      decide ((addr : Int) ≤ patch_max_addr p)

/-- Modelled from the spec: `remove(addr)` removes the patch keyed at `addr`
from the patch set. -/
def remove_patch (pm : List Patch) (a : Nat) : List Patch :=
  pm.filter fun p => p.addr != a

/-- Modelled from the spec: `add(patch)` inserts a patch into the
address-keyed collection, keeping ascending address order and replacing any
patch already keyed at the same address. -/
def add_patch_obj : List Patch → Patch → List Patch
  | [], v => [v]
  | q :: rest, v =>
    if v.addr < q.addr then v :: q :: rest
    else if v.addr = q.addr then v :: rest
    else q :: add_patch_obj rest v

/-- In-place mutation of the patch object keyed at address `a` inside the
externally-owned collection: every stored patch with that key is replaced by
`f` of itself. -/
def update_patch (pm : List Patch) (a : Nat) (f : Patch → Patch) : List Patch :=
  pm.map fun q => if q.addr = a then f q else q

/-- Python slice assignment `b[off:off+nb.length] = nb` on a byte buffer. -/
def splice_bytes (b : List Nat) (off : Nat) (nb : List Nat) : List Nat :=
  b.take off ++ nb ++ b.drop (off + nb.length)

/-- Outcome of the `for p in pm.get_all_patches(...)` loop of `auto_patch`:
either the loop body executed `return` (the containment case), or the loop ran
to completion, or the `assert False` arm was reached. -/
inductive AutoPatchStep where
  | early (pm : List Patch)
  | finished (pm : List Patch)
  | failed
deriving DecidableEq, Repr

/-- Translation of the loop body of `HexView.auto_patch` (hex_view.py:1019-1041).
The first argument list is the snapshot returned by `get_all_patches` (Python
evaluates the iterable once, before any mutation); the second is the current
patch set. Each arm mirrors one `elif` of the source, in order; the final arm
is the `assert False`. -/
def auto_patch_loop (addr : Nat) (max_addr : Int) (new_bytes : List Nat) :
    List Patch → List Patch → AutoPatchStep
  | [], pm => .finished pm
  | p :: rest, pm =>
    if (p.addr : Int) ≤ (addr : Int) ∧ max_addr ≤ patch_max_addr p then
      -- Existing patch contains new patch entirely. Update it (and return).
      .early (update_patch pm p.addr fun q =>
        { q with new_bytes := splice_bytes q.new_bytes (addr - q.addr) new_bytes })
    else if (addr : Int) ≤ (p.addr : Int) ∧ patch_max_addr p ≤ max_addr then
      -- Patch will be entirely overwritten, remove it.
      auto_patch_loop addr max_addr new_bytes rest (remove_patch pm p.addr)
    else if (addr : Int) ≤ (p.addr : Int) ∧ max_addr < patch_max_addr p then
      -- Lower portion of patch will be overwritten, shrink patch up.
      let new_p_addr : Nat := (max_addr + 1).toNat
      auto_patch_loop addr max_addr new_bytes rest
        (add_patch_obj (remove_patch pm p.addr)
          { p with addr := new_p_addr, new_bytes := p.new_bytes.drop (new_p_addr - p.addr) })
    else if (p.addr : Int) < (addr : Int) ∧ patch_max_addr p ≤ max_addr then
      -- Upper portion of patch will be overwritten, shrink patch down.
      auto_patch_loop addr max_addr new_bytes rest
        (add_patch_obj (remove_patch pm p.addr)
          { p with new_bytes := p.new_bytes.take (addr - p.addr) })
    else
      .failed

/-- Translation of `HexView.auto_patch` (hex_view.py:1012-1051). Returns `none`
exactly when the `assert False` arm is reached. After the loop, if `addr > 0`
and a patch contains the byte at `addr - 1`, that patch is extended in place by
appending `new_bytes`; otherwise a brand-new patch `{addr, new_bytes}` is
added. -/
def auto_patch (pm : List Patch) (addr : Nat) (new_bytes : List Nat) :
    Option (List Patch) :=
  match auto_patch_loop addr ((addr : Int) + (new_bytes.length : Int) - 1) new_bytes
      (get_all_patches pm addr new_bytes.length) pm with
  | .failed => none
  | .early pm2 => some pm2
  | .finished pm2 =>
    if 0 < addr then
      match get_all_patches pm2 (addr - 1) 1 with
      | [] => some (add_patch_obj pm2 ⟨addr, new_bytes, ""⟩)
      | q :: _ =>
        some (update_patch pm2 q.addr fun r =>
          { r with new_bytes := r.new_bytes ++ new_bytes })
    else
      some (add_patch_obj pm2 ⟨addr, new_bytes, ""⟩)

/-! ## Patch-set invariant

The spec maintains that the externally-owned patch set holds non-empty,
non-overlapping patches in ascending address order. -/

/-- Patch `a` lies entirely (strictly) before patch `b`. -/
def patch_before (a b : Patch) : Prop :=
  a.addr + a.new_bytes.length ≤ b.addr

instance (a b : Patch) : Decidable (patch_before a b) := by
  unfold patch_before; infer_instance

/-- Well-formed patch set: sorted, pairwise non-overlapping, non-empty patches. -/
def pm_wf (pm : List Patch) : Prop :=
  pm.Pairwise patch_before ∧ ∀ p ∈ pm, 0 < p.new_bytes.length

instance (pm : List Patch) : Decidable (pm_wf pm) := by
  unfold pm_wf; infer_instance

theorem pairwise_before_or {pm : List Patch} {p q : Patch}
    (h : pm.Pairwise patch_before) (hp : p ∈ pm) (hq : q ∈ pm) (hne : p ≠ q) :
    patch_before p q ∨ patch_before q p := by
  have h2 : pm.Pairwise fun a b => patch_before a b ∨ patch_before b a :=
    h.imp fun hab => Or.inl hab
  exact h2.forall (fun a b hab => hab.symm) hp hq hne

/-- In a well-formed patch set, the filter of `get_all_patches`-style queries
is a singleton as soon as one member satisfies the predicate and every
satisfying member shares its address. -/
theorem filter_eq_singleton {pm : List Patch} {p : Patch} {pred : Patch → Bool}
    (hsort : pm.Pairwise patch_before)
    (hpos : ∀ q ∈ pm, 0 < q.new_bytes.length)
    (hp : p ∈ pm) (hpred : pred p = true)
    (honly : ∀ q ∈ pm, pred q = true → q.addr = p.addr) :
    pm.filter pred = [p] := by
  induction pm with
  | nil => cases hp
  | cons x rest ih =>
    rw [List.pairwise_cons] at hsort
    by_cases hx : p = x
    · subst hx
      rw [List.filter_cons_of_pos hpred]
      have hrest : rest.filter pred = [] := by
        rw [List.filter_eq_nil_iff]
        intro q hq hqpred
        have haddr := honly q (List.mem_cons_of_mem _ hq) (by simpa using hqpred)
        have hb := hsort.1 q hq
        have hlen := hpos p (List.mem_cons_self _ _)
        unfold patch_before at hb
        omega
      rw [hrest]
    · have hpr : p ∈ rest := by
        rcases List.mem_cons.mp hp with h | h
        · exact absurd h hx
        · exact h
      have hxpred : ¬(pred x = true) := by
        intro hc
        have haddr : x.addr = p.addr := honly x (List.mem_cons_self _ _) hc
        have hb := hsort.1 p hpr
        have hlx := hpos x (List.mem_cons_self _ _)
        unfold patch_before at hb
        omega
      rw [List.filter_cons_of_neg hxpred]
      exact ih hsort.2 (fun q hq => hpos q (List.mem_cons_of_mem _ hq)) hpr
        (fun q hq hqp => honly q (List.mem_cons_of_mem _ hq) hqp)

/-- C2. Writing `new_bytes` fully inside an existing patch `p` of a
well-formed patch set splices the bytes into `p` at the matching offset: `p`
keeps its address and length, exactly the target offsets now hold `new_bytes`,
every other byte of `p` is unchanged, and no patch is created or removed. -/
theorem auto_patch_containment (pm : List Patch) (addr : Nat) (new_bytes : List Nat)
    (p : Patch) (hwf : pm_wf pm) (hp : p ∈ pm) (hn : 0 < new_bytes.length)
    (h1 : p.addr ≤ addr) (h2 : addr + new_bytes.length ≤ patch_end p) :
    auto_patch pm addr new_bytes =
      some (pm.map fun q => if q.addr = p.addr then
        { q with new_bytes := splice_bytes q.new_bytes (addr - p.addr) new_bytes } else q)
    ∧ (splice_bytes p.new_bytes (addr - p.addr) new_bytes).length = p.new_bytes.length
    ∧ (∀ i, i < new_bytes.length →
        (splice_bytes p.new_bytes (addr - p.addr) new_bytes)[(addr - p.addr) + i]? =
          new_bytes[i]?)
    ∧ (∀ j, j < addr - p.addr →
        (splice_bytes p.new_bytes (addr - p.addr) new_bytes)[j]? = p.new_bytes[j]?)
    ∧ (∀ j, addr - p.addr + new_bytes.length ≤ j →
        (splice_bytes p.new_bytes (addr - p.addr) new_bytes)[j]? = p.new_bytes[j]?) := by
  have hplen := hwf.2 p hp
  have hoff : addr - p.addr + new_bytes.length ≤ p.new_bytes.length := by
    unfold patch_end at h2; omega
  refine ⟨?_, ?_, ?_, ?_, ?_⟩
  · -- the patch-set result
    have hsnap : get_all_patches pm addr new_bytes.length = [p] := by
      apply filter_eq_singleton hwf.1 hwf.2 hp
      · simp only [patch_max_addr, Bool.and_eq_true, decide_eq_true_eq]
        constructor <;> omega
      · intro q hq hqpred
        simp only [patch_max_addr, Bool.and_eq_true, decide_eq_true_eq] at hqpred
        by_contra hne
        have hqp : q ≠ p := fun h => hne (by rw [h])
        have hqlen := hwf.2 q hq
        unfold patch_end at h2
        rcases pairwise_before_or hwf.1 hq hp hqp with hb | hb <;>
          · unfold patch_before at hb; omega
    unfold auto_patch
    rw [hsnap]
    have hguard : (p.addr : Int) ≤ (addr : Int) ∧
        (addr : Int) + (new_bytes.length : Int) - 1 ≤ patch_max_addr p := by
      unfold patch_max_addr patch_end at *
      constructor <;> omega
    simp only [auto_patch_loop, if_pos hguard]
    refine congrArg some ?_
    unfold update_patch
    apply List.map_congr_left
    intro q _
    by_cases hqa : q.addr = p.addr
    · simp only [if_pos hqa, hqa]
    · simp only [if_neg hqa]
  · simp only [splice_bytes, List.length_append, List.length_take, List.length_drop]
    omega
  · intro i hi
    have hmin : min (addr - p.addr) p.new_bytes.length = addr - p.addr := by omega
    simp only [splice_bytes, List.getElem?_append, List.length_append, List.length_take,
      hmin]
    rw [if_pos (by omega), if_neg (by omega)]
    congr 1
    omega
  · intro j hj
    have hmin : min (addr - p.addr) p.new_bytes.length = addr - p.addr := by omega
    simp only [splice_bytes, List.getElem?_append, List.length_append, List.length_take,
      hmin]
    rw [if_pos (by omega), if_pos (by omega), List.getElem?_take_of_lt hj]
  · intro j hj
    have hmin : min (addr - p.addr) p.new_bytes.length = addr - p.addr := by omega
    simp only [splice_bytes, List.getElem?_append, List.length_append, List.length_take,
      hmin]
    rw [if_neg (by omega), List.getElem?_drop]
    congr 1
    omega

/-- C2 witness: splicing two bytes into the middle of a four-byte patch. -/
theorem auto_patch_containment_witness :
    auto_patch [⟨10, [1, 2, 3, 4], ""⟩] 11 [9, 9] = some [⟨10, [1, 9, 9, 4], ""⟩] := by
  have h := (auto_patch_containment [⟨10, [1, 2, 3, 4], ""⟩] 11 [9, 9]
    ⟨10, [1, 2, 3, 4], ""⟩ (by decide) (by decide) (by decide) (by decide) (by decide)).1
  rw [h]
  decide

/-- C3. When the intersection loop of `auto_patch` runs to completion (no
containment early-return) and the resulting patch set is well formed, then: if
some patch of it contains the byte at `addr - 1`, that patch is extended in
place by appending `new_bytes` and no brand-new patch is created; a new patch
`{addr, new_bytes}` is created exactly when no patch contains `addr - 1`. -/
theorem auto_patch_adjacent_extend (pm pm2 : List Patch) (addr : Nat)
    (new_bytes : List Nat) (haddr : 0 < addr)
    (hloop : auto_patch_loop addr ((addr : Int) + (new_bytes.length : Int) - 1) new_bytes
      (get_all_patches pm addr new_bytes.length) pm = .finished pm2)
    (hwf2 : pm_wf pm2) :
    (∀ q ∈ pm2, q.addr ≤ addr - 1 → addr - 1 < patch_end q →
      auto_patch pm addr new_bytes =
        some (pm2.map fun r => if r.addr = q.addr then
          { r with new_bytes := r.new_bytes ++ new_bytes } else r))
    ∧ ((∀ q ∈ pm2, ¬(q.addr ≤ addr - 1 ∧ addr - 1 < patch_end q)) →
      auto_patch pm addr new_bytes = some (add_patch_obj pm2 ⟨addr, new_bytes, ""⟩)) := by
  constructor
  · intro q hq hq1 hq2
    have hqlen := hwf2.2 q hq
    have hsnap : get_all_patches pm2 (addr - 1) 1 = [q] := by
      apply filter_eq_singleton hwf2.1 hwf2.2 hq
      · simp only [patch_max_addr, Bool.and_eq_true, decide_eq_true_eq]
        unfold patch_end at hq2
        constructor <;> omega
      · intro r hr hrpred
        simp only [patch_max_addr, Bool.and_eq_true, decide_eq_true_eq] at hrpred
        by_contra hne
        have hrq : r ≠ q := fun h => hne (by rw [h])
        have hrlen := hwf2.2 r hr
        unfold patch_end at hq2
        rcases pairwise_before_or hwf2.1 hr hq hrq with hb | hb <;>
          · unfold patch_before at hb; omega
    unfold auto_patch
    rw [hloop]
    simp only [if_pos haddr, hsnap]
    rfl
  · intro hnone
    have hsnap : get_all_patches pm2 (addr - 1) 1 = [] := by
      rw [get_all_patches, List.filter_eq_nil_iff]
      intro r hr
      have hrno := hnone r hr
      have hrlen := hwf2.2 r hr
      simp only [patch_max_addr, Bool.and_eq_true, decide_eq_true_eq, not_and]
      intro hr1
      unfold patch_end at hrno
      omega
    unfold auto_patch
    rw [hloop]
    simp only [if_pos haddr, hsnap]

/-- C3 witness: a write one byte past the end of an existing patch extends
that patch in place. -/
theorem auto_patch_adjacent_extend_witness :
    auto_patch [⟨5, [1, 2, 3], ""⟩] 8 [9] = some [⟨5, [1, 2, 3, 9], ""⟩] := by
  have h := (auto_patch_adjacent_extend [⟨5, [1, 2, 3], ""⟩] [⟨5, [1, 2, 3], ""⟩] 8 [9]
      (by decide) (by decide) (by decide)).1 ⟨5, [1, 2, 3], ""⟩ (by decide) (by decide)
      (by decide)
  rw [h]
  decide

/-! ## Patch split and merge (`PatchHighlightRegion`, hex_view.py:98-132) -/

/-- Translation of `PatchHighlightRegion.can_split` (hex_view.py:98-103): the
cursor must lie strictly inside the patch. -/
def can_split (p : Patch) (cursor : Nat) : Prop :=
  p.addr < cursor ∧ cursor < p.addr + p.new_bytes.length

instance (p : Patch) (cursor : Nat) : Decidable (can_split p cursor) := by
  unfold can_split; infer_instance

/-- Translation of `PatchHighlightRegion.split` (hex_view.py:105-116): when
permitted, the patch object keyed at `p.addr` is truncated in place to its
first `cursor - p.addr` bytes and a new patch holding the remaining bytes (and
the carried comment) is added at `cursor`. -/
def split_patch (pm : List Patch) (p : Patch) (cursor : Nat) : List Patch :=
  if can_split p cursor then
    add_patch_obj
      (update_patch pm p.addr fun q =>
        { q with new_bytes := q.new_bytes.take (cursor - p.addr) })
      ⟨cursor, p.new_bytes.drop (cursor - p.addr), p.comment⟩
  else pm

/-- Translation of `PatchHighlightRegion.can_merge_with` (hex_view.py:118-122):
only a directly adjacent patch qualifies. -/
def can_merge_with (p other : Patch) : Prop :=
  other.addr = p.addr + p.new_bytes.length

instance (p other : Patch) : Decidable (can_merge_with p other) := by
  unfold can_merge_with; infer_instance

/-- Translation of `PatchHighlightRegion.merge_with` (hex_view.py:124-132):
when permitted, the patch keyed at `p.addr` absorbs the bytes of `other` and
the patch keyed at `other.addr` is removed. -/
def merge_with (pm : List Patch) (p other : Patch) : List Patch :=
  if can_merge_with p other then
    remove_patch
      (update_patch pm p.addr fun q =>
        { q with new_bytes := q.new_bytes ++ other.new_bytes })
      other.addr
  else pm

theorem add_patch_obj_cons_lt (q v : Patch) (ys : List Patch) (h : q.addr < v.addr) :
    add_patch_obj (q :: ys) v = q :: add_patch_obj ys v := by
  simp only [add_patch_obj]
  rw [if_neg (by omega), if_neg (by omega)]

theorem add_patch_obj_append (xs ys : List Patch) (v : Patch)
    (h : ∀ q ∈ xs, q.addr < v.addr) :
    add_patch_obj (xs ++ ys) v = xs ++ add_patch_obj ys v := by
  induction xs with
  | nil => simp
  | cons x rest ih =>
    rw [List.cons_append, add_patch_obj_cons_lt x v _ (h x (List.mem_cons_self _ _)),
      ih (fun q hq => h q (List.mem_cons_of_mem _ hq)), List.cons_append]

theorem add_patch_obj_front (ys : List Patch) (v : Patch)
    (h : ∀ q ∈ ys, v.addr < q.addr) :
    add_patch_obj ys v = v :: ys := by
  cases ys with
  | nil => rfl
  | cons y rest =>
    unfold add_patch_obj
    rw [if_pos (h y (List.mem_cons_self _ _))]

/-- C4. Splitting a patch `p` of a well-formed patch set at an interior
address `c` replaces `p` by exactly two patches: one at `p.addr` holding the
first `c - p.addr` bytes and one at `c` holding the rest; their buffers
concatenate back to the original and their ranges partition `p`'s range.
Merging these two exactly-adjacent halves restores the original patch set, and
merging non-adjacent patches is rejected and changes nothing. -/
theorem split_then_merge (l1 l2 : List Patch) (p : Patch) (c : Nat)
    (hwf : pm_wf (l1 ++ p :: l2)) (hc1 : p.addr < c) (hc2 : c < patch_end p) :
    split_patch (l1 ++ p :: l2) p c =
        l1 ++ { p with new_bytes := p.new_bytes.take (c - p.addr) }
          :: ⟨c, p.new_bytes.drop (c - p.addr), p.comment⟩ :: l2
    ∧ (p.new_bytes.take (c - p.addr)).length = c - p.addr
    ∧ p.new_bytes.take (c - p.addr) ++ p.new_bytes.drop (c - p.addr) = p.new_bytes
    ∧ c + (p.new_bytes.drop (c - p.addr)).length = patch_end p
    ∧ merge_with (split_patch (l1 ++ p :: l2) p c)
        { p with new_bytes := p.new_bytes.take (c - p.addr) }
        ⟨c, p.new_bytes.drop (c - p.addr), p.comment⟩ = l1 ++ p :: l2
    ∧ ∀ (pm2 : List Patch) (a b : Patch), ¬can_merge_with a b →
        merge_with pm2 a b = pm2 := by
  have hplen : 0 < p.new_bytes.length :=
    hwf.2 p (by simp)
  have hl1 : ∀ q ∈ l1, q.addr < p.addr := by
    intro q hq
    have hb : patch_before q p := by
      rcases (List.pairwise_append.mp hwf.1) with ⟨-, -, hcross⟩
      exact hcross q hq p (by simp)
    have := hwf.2 q (by simp [hq])
    unfold patch_before at hb
    omega
  have hl2 : ∀ q ∈ l2, patch_end p ≤ q.addr := by
    intro q hq
    rcases (List.pairwise_append.mp hwf.1) with ⟨-, hp2, -⟩
    rw [List.pairwise_cons] at hp2
    exact hp2.1 q hq
  unfold patch_end at hc2
  have htake : (p.new_bytes.take (c - p.addr)).length = c - p.addr := by
    simp only [List.length_take]
    omega
  have hsplit : split_patch (l1 ++ p :: l2) p c =
      l1 ++ { p with new_bytes := p.new_bytes.take (c - p.addr) }
        :: ⟨c, p.new_bytes.drop (c - p.addr), p.comment⟩ :: l2 := by
    unfold split_patch
    rw [if_pos ⟨hc1, hc2⟩]
    have hupd : update_patch (l1 ++ p :: l2) p.addr
        (fun q => { q with new_bytes := q.new_bytes.take (c - p.addr) }) =
        l1 ++ { p with new_bytes := p.new_bytes.take (c - p.addr) } :: l2 := by
      unfold update_patch
      rw [List.map_append, List.map_cons, if_pos rfl]
      congr 1
      · rw [List.map_congr_left fun q hq => if_neg (by have := hl1 q hq; omega),
          List.map_id']
      · congr 1
        rw [List.map_congr_left fun q hq =>
          if_neg (by have := hl2 q hq; unfold patch_end at this; omega), List.map_id']
    rw [hupd,
      add_patch_obj_append _ _ _ (fun q hq => by have := hl1 q hq; show q.addr < c; omega),
      add_patch_obj_cons_lt { p with new_bytes := p.new_bytes.take (c - p.addr) }
        ⟨c, p.new_bytes.drop (c - p.addr), p.comment⟩ l2 hc1,
      add_patch_obj_front _ _ (fun q hq => by
        have := hl2 q hq; unfold patch_end at this; show c < q.addr; omega)]
  refine ⟨hsplit, htake, List.take_append_drop _ _, ?_, ?_, ?_⟩
  · simp only [List.length_drop, patch_end]
    omega
  · rw [hsplit]
    unfold merge_with
    rw [if_pos (by
      unfold can_merge_with
      show c = p.addr + (p.new_bytes.take (c - p.addr)).length
      rw [htake]; omega)]
    have hupd2 : update_patch
        (l1 ++ { p with new_bytes := p.new_bytes.take (c - p.addr) }
          :: ⟨c, p.new_bytes.drop (c - p.addr), p.comment⟩ :: l2)
        ({ p with new_bytes := p.new_bytes.take (c - p.addr) } : Patch).addr
        (fun q => { q with new_bytes :=
          q.new_bytes ++ (⟨c, p.new_bytes.drop (c - p.addr), p.comment⟩ : Patch).new_bytes }) =
        l1 ++ p :: ⟨c, p.new_bytes.drop (c - p.addr), p.comment⟩ :: l2 := by
      unfold update_patch
      have hne1 : ∀ q ∈ l1,
          ¬(q.addr = ({ p with new_bytes := p.new_bytes.take (c - p.addr) } : Patch).addr) :=
        fun q hq => by
          have := hl1 q hq
          show ¬(q.addr = p.addr)
          omega
      have hne2 : ∀ q ∈ l2,
          ¬(q.addr = ({ p with new_bytes := p.new_bytes.take (c - p.addr) } : Patch).addr) :=
        fun q hq => by
          have := hl2 q hq
          unfold patch_end at this
          show ¬(q.addr = p.addr)
          omega
      rw [List.map_append, List.map_cons, List.map_cons, if_pos rfl,
        if_neg (show ¬(c = p.addr) by omega)]
      congr 1
      · rw [List.map_congr_left fun q hq => if_neg (hne1 q hq), List.map_id']
      · congr 1
        · show (⟨p.addr, p.new_bytes.take (c - p.addr) ++ p.new_bytes.drop (c - p.addr),
              p.comment⟩ : Patch) = p
          rw [List.take_append_drop]
        · congr 1
          rw [List.map_congr_left fun q hq => if_neg (hne2 q hq), List.map_id']
    rw [hupd2]
    unfold remove_patch
    rw [List.filter_append, List.filter_cons_of_pos (by simp; omega),
      List.filter_cons_of_neg (by simp),
      List.filter_eq_self.mpr (fun q hq => by simp; have := hl1 q hq; omega),
      List.filter_eq_self.mpr (fun q hq => by simp; have := hl2 q hq; unfold patch_end at this; omega)]
  · intro pm2 a b hno
    unfold merge_with
    rw [if_neg hno]

/-- C4 witness: splitting a four-byte patch at its midpoint and merging the
halves back. -/
theorem split_then_merge_witness :
    split_patch [⟨10, [1, 2, 3, 4], ""⟩] ⟨10, [1, 2, 3, 4], ""⟩ 12 =
        [⟨10, [1, 2], ""⟩, ⟨12, [3, 4], ""⟩]
    ∧ merge_with [⟨10, [1, 2], ""⟩, ⟨12, [3, 4], ""⟩] ⟨10, [1, 2], ""⟩ ⟨12, [3, 4], ""⟩ =
        [⟨10, [1, 2, 3, 4], ""⟩] := by
  obtain ⟨h1, -, -, -, h5, -⟩ := split_then_merge [] [] ⟨10, [1, 2, 3, 4], ""⟩ 12
    (by decide) (by decide) (by decide)
  have e1 : split_patch ([] ++ [(⟨10, [1, 2, 3, 4], ""⟩ : Patch)])
      ⟨10, [1, 2, 3, 4], ""⟩ 12 = [⟨10, [1, 2], ""⟩, ⟨12, [3, 4], ""⟩] :=
    h1.trans (by decide)
  refine ⟨e1, ?_⟩
  rw [← e1]
  exact h5


/-! ## Cursor, selection and highlight state of `HexGraphicsObject`
(hex_view.py:146-492)

The model keeps the fields of the widget that the cursor/selection/highlight
logic reads or writes. The pixel-layout fields, fonts, timers and the
displayed byte buffer are rendering state with no effect on this logic and are
not part of the state; the byte source is passed to the editing operations as
the `read_func`/`write_func` callbacks, exactly as the widget stores them.
Qt colors are not modelled, so a highlight region is its address range plus
the derived `active` flag. -/

/-- Translation of `HexHighlightRegion` (hex_view.py:30-45) without its Qt
color: `{addr, size, active}`, `active` initially false. -/
structure HexHighlightRegion where
  addr : Nat
  size : Nat
  active : Bool
deriving DecidableEq, Repr

/-- State of `HexGraphicsObject` relevant to cursor, selection and highlight
logic. -/
structure HexState where
  start_addr : Nat
  num_bytes : Nat
  end_addr : Nat
  cursor : Nat
  cursor_nibble : Option Nat
  selection_start : Option Nat
  ascii_column_active : Bool
  processing_cursor_update : Bool
  highlighted_regions : List HexHighlightRegion
deriving DecidableEq, Repr

/-- State established by `HexGraphicsObject.__init__` (hex_view.py:153-195). -/
def initial_hex_state : HexState :=
  { start_addr := 0, num_bytes := 0, end_addr := 0, cursor := 0, cursor_nibble := none,
    selection_start := none, ascii_column_active := false,
    processing_cursor_update := false, highlighted_regions := [] }

/-- Translation of `HexGraphicsObject.update_active_highlight_regions`
(hex_view.py:370-383). `region.addr + region.size - 1` is computed in `Int`
exactly as a Python integer expression. -/
def update_active_highlight_regions (s : HexState) : HexState :=
  let minaddr : Nat := match s.selection_start with
    | none => s.cursor
    | some sel => min s.cursor sel
  let maxaddr : Nat := match s.selection_start with
    | none => s.cursor
    | some sel => max s.cursor sel
  { s with highlighted_regions := s.highlighted_regions.map fun region =>
      { region with active :=
          !(decide ((region.addr : Int) > (maxaddr : Int)) ||
            decide ((minaddr : Int) > (region.addr : Int) + (region.size : Int) - 1)) } }

/-- Restatement of the spec's overlap rule for the `active` flag, for
comparison with the code: a region is active iff
`region.addr <= maxaddr AND minaddr <= region.addr + region.size - 1`, where
`[minaddr, maxaddr]` is the cursor point or the selection range. -/
def active_spec (s : HexState) (region : HexHighlightRegion) : Bool :=
  let minaddr : Nat := match s.selection_start with
    | none => s.cursor
    | some sel => min s.cursor sel
  let maxaddr : Nat := match s.selection_start with
    | none => s.cursor
    | some sel => max s.cursor sel
  decide ((region.addr : Int) ≤ (maxaddr : Int)) &&
    decide ((minaddr : Int) ≤ (region.addr : Int) + (region.size : Int) - 1)

/-- Translation of `HexGraphicsObject.begin_selection` (hex_view.py:348-353). -/
def begin_selection (s : HexState) : HexState :=
  { s with selection_start := some s.cursor }

/-- Translation of `HexGraphicsObject.clear_selection` (hex_view.py:355-360). -/
def clear_selection (s : HexState) : HexState :=
  { s with selection_start := none }

/-- Translation of `HexGraphicsObject.set_highlight_regions`
(hex_view.py:689-695): stores the list, then recomputes the active flags. -/
def set_highlight_regions (s : HexState) (regions : List HexHighlightRegion) : HexState :=
  update_active_highlight_regions { s with highlighted_regions := regions }

/-- Result of an operation that may move the cursor: the new state and whether
the `cursor_changed` Qt signal was emitted. -/
structure CursorResult where
  state : HexState
  emitted : Bool
deriving DecidableEq, Repr

/-- Optional update of `ascii_column_active` performed by `set_cursor`
(hex_view.py:410-411): only when an `ascii_column` argument was passed. -/
def set_ascii (s : HexState) (ascii_column : Option Bool) : HexState :=
  match ascii_column with
  | none => s
  | some b => { s with ascii_column_active := b }

/-- Translation of `HexGraphicsObject.set_cursor` (hex_view.py:401-421).
Out-of-bounds addresses and re-entrant calls return without any state change
and without emitting. On acceptance the source emits `cursor_changed`
unconditionally (line 417) but recomputes active highlight regions (and
repaints) only when the cursor value actually changed. -/
def set_cursor (s : HexState) (addr : Nat) (ascii_column : Option Bool)
    (nibble : Option Nat) : CursorResult :=
  if s.end_addr ≤ addr ∨ addr < s.start_addr then ⟨s, false⟩
  else if s.processing_cursor_update then ⟨s, false⟩
  else if (set_ascii s ascii_column).cursor ≠ addr then
    ⟨update_active_highlight_regions
      { set_ascii s ascii_column with cursor := addr, cursor_nibble := nibble }, true⟩
  else
    ⟨{ set_ascii s ascii_column with cursor := addr, cursor_nibble := nibble }, true⟩

/-- Translation of `HexGraphicsObject.get_highlight_regions_under_cursor`
(hex_view.py:391-399). -/
def get_highlight_regions_under_cursor (s : HexState) : List HexHighlightRegion :=
  s.highlighted_regions.filter fun region =>
    decide (region.addr ≤ s.cursor) && decide (s.cursor < region.addr + region.size)

/-- Key order used by `mouseDoubleClickEvent` (hex_view.py:446):
`sorted(..., key=lambda r: self.cursor - r.addr)`, computed in `Int` as in
Python. -/
def under_cursor_key_le (cursor : Nat) (a b : HexHighlightRegion) : Prop :=
  (cursor : Int) - (a.addr : Int) ≤ (cursor : Int) - (b.addr : Int)

instance (cursor : Nat) (a b : HexHighlightRegion) :
    Decidable (under_cursor_key_le cursor a b) := by
  unfold under_cursor_key_le; infer_instance

instance (cursor : Nat) : IsTotal HexHighlightRegion (under_cursor_key_le cursor) :=
  ⟨fun a b => le_total ((cursor : Int) - (a.addr : Int)) ((cursor : Int) - (b.addr : Int))⟩

instance (cursor : Nat) : IsTrans HexHighlightRegion (under_cursor_key_le cursor) :=
  ⟨fun _ _ _ h1 h2 => le_trans h1 h2⟩

/-- The stable sort applied by `mouseDoubleClickEvent` (hex_view.py:446) to the
lookup result before picking the nearest-start region. -/
def regions_under_cursor_sorted (s : HexState) : List HexHighlightRegion :=
  List.insertionSort (under_cursor_key_le s.cursor) (get_highlight_regions_under_cursor s)

/-- Translation of `HexGraphicsObject._set_byte_value` (hex_view.py:473-479):
a refused write returns with no state change; a successful write advances the
cursor by one via `set_cursor`. -/
def set_byte_value (write_func : Nat → Nat → Bool) (s : HexState) (value : Nat) :
    CursorResult :=
  if write_func s.cursor value then set_cursor s (s.cursor + 1) none none
  else ⟨s, false⟩

/-- Value of `nibble` in `_set_nibble_value` (hex_view.py:482): pending nibble
position, defaulting to 1 (the high nibble) when none is pending. -/
def nibble_index (s : HexState) : Nat :=
  match s.cursor_nibble with
  | none => 1
  | some n => n

/-- Byte assembled by `_set_nibble_value` (hex_view.py:483-488): the current
byte with its 4-bit field at the nibble position replaced by `value`. A
non-integer read (`none`, the source's unavailable marker) is replaced by 0
without masking. `value` is a single hex digit (< 16) at every call site. -/
def nibble_write_byte (read_func : Nat → Option Nat) (s : HexState) (value : Nat) : Nat :=
  let cur := match read_func s.cursor with
    | none => 0
    | some b => b - b / 16 ^ nibble_index s % 16 * 16 ^ nibble_index s
  cur + value * 16 ^ nibble_index s

/-- Translation of `HexGraphicsObject._set_nibble_value` (hex_view.py:481-492):
a refused write returns with no state change; otherwise the cursor moves by
`1 - nibble` (0 after a high nibble, 1 after a low nibble) and the pending
nibble becomes `1 - nibble`. -/
def set_nibble_value (read_func : Nat → Option Nat) (write_func : Nat → Nat → Bool)
    (s : HexState) (value : Nat) : CursorResult :=
  if write_func s.cursor (nibble_write_byte read_func s value) then
    set_cursor s (s.cursor + (1 - nibble_index s)) none (some (1 - nibble_index s))
  else ⟨s, false⟩

/-- Translation of `HexGraphicsObject._set_data_common` (hex_view.py:224-231):
recomputes the exclusive end address and moves the cursor to `start_addr`.
(The layout update has no effect on this state.) -/
def set_data_common (s : HexState) : HexState :=
  (set_cursor { s with end_addr := s.start_addr + s.num_bytes } s.start_addr none none).state

/-- Translation of `HexGraphicsObject.set_data` (hex_view.py:233-241)
restricted to the addressing state: the displayed byte buffer itself is not
part of the cursor model. -/
def set_data (s : HexState) (start_addr num_bytes : Nat) : HexState :=
  set_data_common { s with start_addr := start_addr, num_bytes := num_bytes }

/-- Cursor bounds invariant of the data model: `start_addr <= cursor < end_addr`. -/
def cursor_in_bounds (s : HexState) : Prop :=
  s.start_addr ≤ s.cursor ∧ s.cursor < s.end_addr

instance (s : HexState) : Decidable (cursor_in_bounds s) := by
  unfold cursor_in_bounds; infer_instance

/-- Sample configured state shared by concrete witnesses: a 16-byte region at
address 0 with the cursor at 0. -/
def sample_state : HexState :=
  set_data initial_hex_state 0 16

theorem set_ascii_cursor (s : HexState) (ascii_column : Option Bool) :
    (set_ascii s ascii_column).cursor = s.cursor := by
  cases ascii_column <;> rfl

theorem not_or_decide_eq (a b c d : Prop) [Decidable a] [Decidable b] [Decidable c]
    [Decidable d] (h1 : c ↔ ¬a) (h2 : d ↔ ¬b) :
    (!(decide a || decide b)) = (decide c && decide d) := by
  by_cases ha : a <;> by_cases hb : b <;> simp [ha, hb, h1, h2]

/-- After `update_active_highlight_regions`, every region's `active` flag
agrees with the spec's overlap formula. -/
theorem update_active_matches_spec (s : HexState) :
    ∀ region ∈ (update_active_highlight_regions s).highlighted_regions,
      region.active = active_spec (update_active_highlight_regions s) region := by
  intro region hmem
  simp only [update_active_highlight_regions, List.mem_map] at hmem
  obtain ⟨r, hr, rfl⟩ := hmem
  simp only [update_active_highlight_regions, active_spec]
  exact not_or_decide_eq _ _ _ _ (not_lt.symm) (not_lt.symm)

/-- C5 counterexample state: select `[0, 5]` so that the region at 5 becomes
active, then clear the selection; the stale `active` flag survives. -/
def c5_stale_state : HexState :=
  clear_selection (set_cursor (begin_selection
    ((set_cursor (set_highlight_regions sample_state [⟨5, 1, false⟩]) 5 none none).state))
    0 none none).state

/-- C5 counterexample: after `clear_selection`, a region's `active` flag

disagrees with the overlap test for the new cursor-only range, because
`clear_selection` (hex_view.py:355-360) does not recompute active flags. -/
theorem clear_selection_stale_active :
    ¬((c5_stale_state.highlighted_regions.all fun region =>
      region.active == active_spec c5_stale_state region) = true) := by decide

/-- C5 (amended). Active highlight flags are recomputed only by an accepted
cursor move whose address differs from the current cursor (and by
`set_highlight_regions`); after such a move every region's `active` flag
equals the overlap test. `begin_selection` and `clear_selection` leave the
flags untouched. -/
theorem set_cursor_recomputes_active (s : HexState) (a : Nat) (ascii_column : Option Bool)
    (nibble : Option Nat) (h1 : s.start_addr ≤ a) (h2 : a < s.end_addr)
    (h3 : s.processing_cursor_update = false) (h4 : s.cursor ≠ a) :
    (∀ region ∈ (set_cursor s a ascii_column nibble).state.highlighted_regions,
      region.active = active_spec (set_cursor s a ascii_column nibble).state region)
    ∧ (begin_selection s).highlighted_regions = s.highlighted_regions
    ∧ (clear_selection s).highlighted_regions = s.highlighted_regions := by
  refine ⟨?_, rfl, rfl⟩
  unfold set_cursor
  rw [if_neg (by omega), if_neg (by simp [h3]),
    if_pos (by rw [set_ascii_cursor]; exact h4)]
  exact update_active_matches_spec _

/-- C5 (amended) witness: the recomputation rule evaluated after a concrete
accepted move. -/
theorem set_cursor_recomputes_active_witness :
    ((set_cursor (set_highlight_regions sample_state [⟨5, 1, false⟩]) 3 none
        none).state.highlighted_regions.all fun region =>
      region.active == active_spec
        (set_cursor (set_highlight_regions sample_state [⟨5, 1, false⟩]) 3 none none).state
        region) = true := by
  have h := (set_cursor_recomputes_active
    (set_highlight_regions sample_state [⟨5, 1, false⟩]) 3 none none
    (by decide) (by decide) (by decide) (by decide)).1
  rw [List.all_eq_true]
  intro region hmem
  simpa using h region hmem

/-- C6 counterexample: in the widget's initial (empty-region) state,
`start_addr <= cursor < end_addr` is false, so the invariant does not hold at
all times. -/
theorem cursor_bounds_initial_counterexample :
    ¬cursor_in_bounds initial_hex_state := by decide

/-- C6 (amended). Once a non-empty region is configured the invariant
`start_addr <= cursor < end_addr` holds and is preserved: `set_data` with
`num_bytes > 0` establishes it, every `set_cursor` preserves it, a move to any
out-of-bounds address is an exact no-op (state unchanged, nothing emitted, no
error), and selection changes do not affect it. -/
theorem cursor_bounds_preserved (s : HexState) (a new_start new_num : Nat)
    (ascii_column : Option Bool) (nibble : Option Nat) :
    (cursor_in_bounds s → cursor_in_bounds (set_cursor s a ascii_column nibble).state)
    ∧ ((a < s.start_addr ∨ s.end_addr ≤ a) →
        set_cursor s a ascii_column nibble = ⟨s, false⟩)
    ∧ (cursor_in_bounds s → cursor_in_bounds (begin_selection s))
    ∧ (cursor_in_bounds s → cursor_in_bounds (clear_selection s))
    ∧ (0 < new_num → s.processing_cursor_update = false →
        cursor_in_bounds (set_data s new_start new_num)) := by
  refine ⟨?_, ?_, fun h => h, fun h => h, ?_⟩
  · intro hinv
    unfold set_cursor
    split_ifs with hg1 hg2 hch
    · exact hinv
    · exact hinv
    · unfold cursor_in_bounds at *
      rcases ascii_column with _ | b <;>
        simp only [set_ascii, update_active_highlight_regions] <;> omega
    · unfold cursor_in_bounds at *
      rcases ascii_column with _ | b <;> simp only [set_ascii] <;> omega
  · intro h
    unfold set_cursor
    rw [if_pos (by omega)]
  · intro hn hflag
    unfold set_data set_data_common set_cursor
    rw [if_neg (by simp only []; omega), if_neg (by simp only []; simp [hflag])]
    split_ifs with hch
    · unfold cursor_in_bounds
      simp only [set_ascii, update_active_highlight_regions]
      omega
    · unfold cursor_in_bounds
      simp only [set_ascii]
      omega

/-- C6 (amended) witness: the invariant holds concretely after `set_data`, is
preserved by a concrete in-bounds move, and a concrete out-of-bounds move is a
no-op. -/
theorem cursor_bounds_preserved_witness :
    cursor_in_bounds (set_cursor sample_state 7 none none).state
    ∧ set_cursor sample_state 99 none none = ⟨sample_state, false⟩
    ∧ cursor_in_bounds (set_data initial_hex_state 0 16) := by
  refine ⟨(cursor_bounds_preserved sample_state 7 0 16 none none).1 (by decide),
    (cursor_bounds_preserved sample_state 99 0 16 none none).2.1 (by decide),
    (cursor_bounds_preserved initial_hex_state 0 0 16 none none).2.2.2.2
      (by decide) (by decide)⟩

/-- C7 counterexample: an accepted move to the current cursor address still
emits `cursor_changed` — the emit at hex_view.py:417 is unconditional. -/
theorem set_cursor_redundant_move_emits :
    sample_state.cursor = 0 ∧ (set_cursor sample_state 0 none none).emitted = true := by
  decide

/-- C7 (amended). Every accepted `set_cursor` call emits the cursor-changed
event, whether or not the cursor value changed; only the recomputation of
active highlight regions (and the repaint) is conditional on the value
actually changing. -/
theorem set_cursor_always_emits (s : HexState) (a : Nat) (ascii_column : Option Bool)
    (nibble : Option Nat) (h1 : s.start_addr ≤ a) (h2 : a < s.end_addr)
    (h3 : s.processing_cursor_update = false) :
    (set_cursor s a ascii_column nibble).emitted = true
    ∧ (s.cursor = a →
        (set_cursor s a ascii_column nibble).state.highlighted_regions =
          s.highlighted_regions) := by
  unfold set_cursor
  rw [if_neg (by omega), if_neg (by simp [h3])]
  constructor
  · split_ifs <;> rfl
  · intro hsame
    rw [if_neg (by rw [set_ascii_cursor]; simp [hsame])]
    rcases ascii_column with _ | b <;> rfl

/-- C7 (amended) witness: a concrete accepted move to the current address
emits and leaves the highlight list unchanged. -/
theorem set_cursor_always_emits_witness :
    (set_cursor sample_state 0 none none).emitted = true
    ∧ (set_cursor sample_state 0 none none).state.highlighted_regions =
        sample_state.highlighted_regions := by
  have h := set_cursor_always_emits sample_state 0 none none (by decide) (by decide)
    (by decide)
  exact ⟨h.1, h.2 (by decide)⟩

/-- C8 counterexample state: two overlapping regions stored with the
farther-start region first, cursor inside both. -/
def c8_state : HexState :=
  (set_cursor (set_highlight_regions sample_state
    [⟨0, 10, false⟩, ⟨5, 10, false⟩]) 5 none none).state

/-- C8 counterexample: the lookup itself returns the regions in stored list
order, which here is not ascending in `cursor - region.addr`; the sort happens
only at the double-click call site (hex_view.py:446). -/
theorem under_cursor_lookup_not_sorted :
    get_highlight_regions_under_cursor c8_state = [⟨0, 10, true⟩, ⟨5, 10, true⟩]
    ∧ ¬(get_highlight_regions_under_cursor c8_state).Sorted
        (under_cursor_key_le c8_state.cursor) := by
  constructor
  · decide
  · decide

/-- C8 (amended). The lookup returns exactly the regions satisfying
`region.addr <= cursor < region.addr + region.size`, in stored list order (a
sublist of the stored list); the double-click handler then sorts that result
ascending in `cursor - region.addr` (a permutation ordered by that key). -/
theorem under_cursor_lookup_exact (s : HexState) :
    (∀ region, region ∈ get_highlight_regions_under_cursor s ↔
      region ∈ s.highlighted_regions ∧ region.addr ≤ s.cursor ∧
        s.cursor < region.addr + region.size)
    ∧ List.Sublist (get_highlight_regions_under_cursor s) s.highlighted_regions
    ∧ List.Perm (regions_under_cursor_sorted s) (get_highlight_regions_under_cursor s)
    ∧ (regions_under_cursor_sorted s).Sorted (under_cursor_key_le s.cursor) := by
  refine ⟨?_, List.filter_sublist _, List.perm_insertionSort _ _,
    List.sorted_insertionSort _ _⟩
  intro region
  simp [get_highlight_regions_under_cursor, List.mem_filter, and_assoc]

/-- C9 counterexample state: pending low nibble at the last address of the
region (cursor 15 of `[0, 16)`). -/
def c9_state : HexState :=
  (set_nibble_value (fun _ => some 0) (fun _ _ => true)
    (set_cursor sample_state 15 none none).state 10).state

/-- C9 counterexample: at the last address, with the low nibble pending, a
successful nibble write does not advance the cursor — `set_cursor(cursor + 1)`
is rejected by the bounds check, leaving the whole state unchanged. -/
theorem nibble_advance_blocked_at_last_addr :
    c9_state.cursor = 15 ∧ c9_state.cursor_nibble = some 0 ∧ c9_state.end_addr = 16
    ∧ (set_nibble_value (fun _ => some 0) (fun _ _ => true) c9_state 5).state =
        c9_state := by
  decide

/-- C9 (amended). Hex-mode nibble editing: a refused write changes nothing and
emits nothing; with no nibble pending, a successful write keeps the cursor and
sets the pending nibble to the low position (0); with the low nibble pending
and the next address in bounds, a successful write advances the cursor by one
and sets the pending nibble back to the high position (1); with the low nibble
pending at the last address, the successful write leaves the cursor state
unchanged and emits nothing. -/
theorem set_nibble_value_cursor (read_func : Nat → Option Nat)
    (write_func : Nat → Nat → Bool) (s : HexState) (value : Nat)
    (hinv : cursor_in_bounds s) (hflag : s.processing_cursor_update = false) :
    (write_func s.cursor (nibble_write_byte read_func s value) = false →
      set_nibble_value read_func write_func s value = ⟨s, false⟩)
    ∧ (write_func s.cursor (nibble_write_byte read_func s value) = true →
        s.cursor_nibble = none →
        (set_nibble_value read_func write_func s value).state.cursor = s.cursor
        ∧ (set_nibble_value read_func write_func s value).state.cursor_nibble = some 0
        ∧ (set_nibble_value read_func write_func s value).emitted = true)
    ∧ (write_func s.cursor (nibble_write_byte read_func s value) = true →
        s.cursor_nibble = some 0 → s.cursor + 1 < s.end_addr →
        (set_nibble_value read_func write_func s value).state.cursor = s.cursor + 1
        ∧ (set_nibble_value read_func write_func s value).state.cursor_nibble = some 1)
    ∧ (write_func s.cursor (nibble_write_byte read_func s value) = true →
        s.cursor_nibble = some 0 → s.cursor + 1 = s.end_addr →
        set_nibble_value read_func write_func s value = ⟨s, false⟩) := by
  obtain ⟨hi1, hi2⟩ := hinv
  refine ⟨?_, ?_, ?_, ?_⟩
  · intro hw
    unfold set_nibble_value
    rw [if_neg (by simp [hw])]
  · intro hw hnib
    have hni : nibble_index s = 1 := by unfold nibble_index; rw [hnib]
    unfold set_nibble_value
    rw [if_pos hw, hni]
    simp only [Nat.sub_self, Nat.add_zero]
    unfold set_cursor
    rw [if_neg (by omega), if_neg (by simp [hflag]),
      if_neg (by rw [set_ascii_cursor]; omega)]
    exact ⟨rfl, rfl, rfl⟩
  · intro hw hnib hroom
    have hni : nibble_index s = 0 := by unfold nibble_index; rw [hnib]
    unfold set_nibble_value
    rw [if_pos hw, hni]
    simp only [Nat.sub_zero]
    unfold set_cursor
    rw [if_neg (by omega), if_neg (by simp [hflag]),
      if_pos (by rw [set_ascii_cursor]; omega)]
    exact ⟨rfl, rfl⟩
  · intro hw hnib hlast
    have hni : nibble_index s = 0 := by unfold nibble_index; rw [hnib]
    unfold set_nibble_value
    rw [if_pos hw, hni]
    simp only [Nat.sub_zero]
    unfold set_cursor
    rw [if_pos (by omega)]

/-- C9 (amended) witness: the three successful-write behaviors and the refusal
behavior evaluated at concrete states. -/
theorem set_nibble_value_cursor_witness :
    ((set_nibble_value (fun _ => some 0) (fun _ _ => true) sample_state 10).state.cursor =
        sample_state.cursor
      ∧ (set_nibble_value (fun _ => some 0) (fun _ _ => true)
          sample_state 10).state.cursor_nibble = some 0
      ∧ (set_nibble_value (fun _ => some 0) (fun _ _ => true) sample_state 10).emitted =
          true)
    ∧ set_nibble_value (fun _ => some 0) (fun _ _ => false) sample_state 10 =
        ⟨sample_state, false⟩ := by
  refine ⟨(set_nibble_value_cursor (fun _ => some 0) (fun _ _ => true) sample_state 10
    (by decide) (by decide)).2.1 (by decide) (by decide), ?_⟩
  exact (set_nibble_value_cursor (fun _ => some 0) (fun _ _ => false) sample_state 10
    (by decide) (by decide)).1 (by decide)

/-- C10. A successful full-byte edit at the last address performs the write
but leaves the entire cursor state unchanged: the post-write advance to
`end_addr` is silently rejected by the bounds check of `set_cursor`, so the
cursor stays at `end_addr - 1` and a byte edit never moves the cursor out of
`[start_addr, end_addr)`. -/
theorem set_byte_value_last_addr (write_func : Nat → Nat → Bool) (s : HexState)
    (value : Nat) (hinv : cursor_in_bounds s) (hlast : s.cursor + 1 = s.end_addr)
    (hw : write_func s.cursor value = true) :
    (set_byte_value write_func s value).state = s
    ∧ (set_byte_value write_func s value).state.cursor = s.end_addr - 1
    ∧ cursor_in_bounds (set_byte_value write_func s value).state := by
  obtain ⟨hi1, hi2⟩ := hinv
  have hres : set_byte_value write_func s value = ⟨s, false⟩ := by
    unfold set_byte_value
    rw [if_pos hw]
    unfold set_cursor
    rw [if_pos (by omega)]
  rw [hres]
  refine ⟨rfl, ?_, ?_⟩
  · show s.cursor = s.end_addr - 1
    omega
  · show s.start_addr ≤ s.cursor ∧ s.cursor < s.end_addr
    omega

/-- C10 witness: a concrete byte edit at the last address of a 16-byte
region. -/
theorem set_byte_value_last_addr_witness :
    (set_byte_value (fun _ _ => true) (set_cursor sample_state 15 none none).state
        7).state = (set_cursor sample_state 15 none none).state
    ∧ (set_byte_value (fun _ _ => true) (set_cursor sample_state 15 none none).state
        7).state.cursor = 15 := by
  have h := set_byte_value_last_addr (fun _ _ => true)
    (set_cursor sample_state 15 none none).state 7 (by decide) (by decide) (by decide)
  exact ⟨h.1, by rw [h.1]; decide⟩

end HexViewModel
